import Mathlib

/-!
Verification of the MetadataWatcher plugin core (src/main.ts): the Baseline
Cache, the change dispatcher (header groups and command groups), and the
header text-rewrite. The TypeScript source is shallowly embedded: metadata
snapshots and the cache are functions from strings to optional scalar values,
side effects (document read, document write, command execution) are recorded
in an explicit trace, and a failure oracle models exceptions thrown by the
external services, which the source code does not catch.
-/

namespace MetadataWatcher

/-- A JavaScript-style scalar front-matter value, as stored in the
metadata snapshot and in the lastMetadataValues cache. -/
inductive JVal where
  | str (s : String)
  | num (n : Int)
  | bool (b : Bool)
  deriving DecidableEq

/-- JavaScript truthiness of a scalar, used by the guards of the form
group.active && metadata[group.watchedField] in the source. -/
def JVal.truthy : JVal → Bool
  | .str s => s != ""
  | .num n => n != 0
  | .bool b => b

/-- Template-literal stringification of a scalar, as performed by the
replacement text built in replaceHeaderWithMetadataValue. -/
def JVal.asString : JVal → String
  | .str s => s
  | .num n => toString n
  | .bool b => if b then "true" else "false"

/-- A header group from the settings: watchedField, header, active. -/
structure HeaderGroup where
  watchedField : String
  header : String
  active : Bool
  deriving DecidableEq

/-- A command group from the settings: watchedField, command, active. -/
structure CommandGroup where
  watchedField : String
  command : String
  active : Bool
  deriving DecidableEq

/-- The plugin settings: the ordered header groups and command groups. -/
structure Settings where
  headerGroups : List HeaderGroup
  commandGroups : List CommandGroup

/-- A parsed front-matter snapshot: field name to optional value. -/
abbrev Metadata : Type := String → Option JVal

/-- The lastMetadataValues baseline cache: composite string key to value. -/
abbrev Cache : Type := String → Option JVal

/-- Writing one entry of the baseline cache. -/
def Cache.set (c : Cache) (k : String) (v : JVal) : Cache :=
  fun k' => if k' = k then some v else c k'

/-- The composite cache key file.path ++ "-" ++ group.watchedField used by
the source at every cache access. -/
def cacheKey (path watchedField : String) : String :=
  path ++ "-" ++ watchedField

/-- One side effect performed against the host: reading a document,
writing a document with given content, or executing a command by id. -/
inductive Effect where
  | readDoc (path : String)
  | writeDoc (path : String) (content : String)
  | execCommand (id : String)
  deriving DecidableEq

/-- The mutable plugin state: the baseline cache and the vault's document
store (path to full text). -/
structure PluginState where
  lastMetadataValues : Cache
  vaultContent : String → String

/-- Abstract syntax of the regular-expression fragment the configured
header is compiled into: literal characters, the any-character dot
(which does not match a newline), concatenation, prioritized alternation
and greedy repetition. -/
inductive Regex where
  | emptyR
  | char (c : Char)
  | anyChar
  | cat (r1 r2 : Regex)
  | alt (r1 r2 : Regex)
  | star (r : Regex)
  deriving DecidableEq

/-- Backtracking matcher with the JavaScript engine's strategy: a match
attempt returns the remaining input after the first success in priority
order — alternation tries its left branch first, repetition is greedy
and an iteration must consume input. The fuel argument bounds the
recursion; every theorem below supplies more fuel than its pattern can
consume, so the bound is never hit there. -/
def matchFuel : Nat → Regex → List Char → (List Char → Option (List Char)) →
    Option (List Char)
  | 0, _, _, _ => none
  | fuel + 1, r, s, k =>
    match r with
    | .emptyR => k s
    | .char c =>
      match s with
      | [] => none
      | x :: xs => if x = c then k xs else none
    | .anyChar =>
      match s with
      | [] => none
      | x :: xs => if x = '\n' then none else k xs
    | .cat r1 r2 => matchFuel fuel r1 s (fun s1 => matchFuel fuel r2 s1 k)
    | .alt r1 r2 => matchFuel fuel r1 s k <|> matchFuel fuel r2 s k
    | .star r1 =>
      matchFuel fuel r1 s (fun s1 =>
        if s1.length < s.length then matchFuel fuel (.star r1) s1 k else none)
      <|> k s

/-- Right-nested concatenation of the collected atoms (most recent
first, as kept by the parser). -/
def buildCat (rs : List Regex) : Regex :=
  rs.foldl (fun acc r => Regex.cat r acc) Regex.emptyR

/-- Left-to-right prioritized alternation of the collected alternatives
(most recent first) around the final alternative. -/
def buildAlts (alts : List Regex) (last : Regex) : Regex :=
  alts.foldl (fun acc r => Regex.alt r acc) last

/-- One pass over the header characters building the regex the
JavaScript constructor would compile: ordinary characters are literals;
the metacharacters bar, parentheses, dot, star, plus and question mark
keep their meaning. Constructs outside this fragment (character classes,
braces, escapes, anchors, lazy or invalid quantifiers, unbalanced
parentheses) are out of the modelled domain and parse to none. The state
is the reversed atom list of the current alternative, the reversed list
of completed alternatives, the stack of enclosing groups, and whether
the previous atom was quantified. -/
def parseLoop : List Char → List Regex → List Regex →
    List (List Regex × List Regex) → Bool → Option Regex
  | [], concat, alts, stack, _ =>
    match stack with
    | [] => some (buildAlts alts (buildCat concat))
    | _ :: _ => none
  | c :: rest, concat, alts, stack, lastQ =>
    if c = '|' then parseLoop rest [] (buildCat concat :: alts) stack false
    else if c = '(' then parseLoop rest [] [] ((concat, alts) :: stack) false
    else if c = ')' then
      match stack with
      | [] => none
      | (concat0, alts0) :: stack' =>
        parseLoop rest (buildAlts alts (buildCat concat) :: concat0) alts0 stack' false
    else if c = '*' then
      if lastQ then none
      else
        match concat with
        | [] => none
        | a :: as => parseLoop rest (Regex.star a :: as) alts stack true
    else if c = '+' then
      if lastQ then none
      else
        match concat with
        | [] => none
        | a :: as => parseLoop rest (Regex.cat a (Regex.star a) :: as) alts stack true
    else if c = '?' then
      if lastQ then none
      else
        match concat with
        | [] => none
        | a :: as => parseLoop rest (Regex.alt a Regex.emptyR :: as) alts stack true
    else if c = '.' then parseLoop rest (Regex.anyChar :: concat) alts stack false
    else if c = '[' ∨ c = ']' ∨ c = '{' ∨ c = '}' ∨ c = '\\' ∨ c = '^' ∨ c = '$'
      then none
    else parseLoop rest (Regex.char c :: concat) alts stack false

/-- The regex compiled from the configured header text. -/
def parseHeaderRegex (header : List Char) : Option Regex :=
  parseLoop header [] [] [] false

/-- The per-line step of the multiline replace: at each line start in
order, try to match the compiled header there; at the first line where
it matches, the whole matched line is replaced by the text matched by
group one, a space, and the value — the rest of the line, consumed by
the dot-star group, is discarded. -/
def replaceFirstRegexLine (r : Regex) (hlen : Nat) (val : List Char) :
    List (List Char) → List (List Char)
  | [] => []
  | l :: ls =>
    match matchFuel ((hlen + 2) * (l.length + 2)) r l some with
    | some rest => (l.take (l.length - rest.length) ++ ' ' :: val) :: ls
    | none => l :: replaceFirstRegexLine r hlen val ls

/-- Embedding of replaceHeaderWithMetadataValue: the source interpolates
the header text unescaped into the multiline pattern anchored at line
start, capturing the header match as group one and the rest of the line
as group two, and replaces the first match of the whole line with group
one, a space, and the stringified value. Modelled for headers inside the
fragment of parseLoop (and containing no literal newline): positions are
scanned line by line in order, group one is the priority-first match of
the compiled header at the line start, and the rest of the matched line
is discarded. Headers outside the fragment are out of the model's
domain, and no theorem relies on them. -/
def replaceHeaderWithMetadataValue (content header valueToInsert : String) : String :=
  match parseHeaderRegex header.data with
  | none => content
  | some r =>
    String.mk (List.intercalate ['\n']
      (replaceFirstRegexLine r header.data.length valueToInsert.data
        (content.data.splitOn '\n')))

/-- Processing of a single header group inside processHeaderGroups: if the
group is active and the watched field is truthy and differs from the
cached previous value, read the document, rewrite the header line, write
the document back, and update the cache. The fails oracle models the
external read or write throwing; the exception aborts processing with the
state updates after the throw point skipped. -/
def processHeaderGroup (fails : Effect → Bool) (path : String) (metadata : Metadata)
    (g : HeaderGroup) (st : PluginState) : PluginState × List Effect × Bool :=
  match metadata g.watchedField with
  | none => (st, [], false)
  | some currentValue =>
    if g.active && currentValue.truthy then
      let previousValue := st.lastMetadataValues (cacheKey path g.watchedField)
      if some currentValue ≠ previousValue then
        if fails (.readDoc path) then (st, [.readDoc path], true)
        else
          let fileContent := st.vaultContent path
          let updatedContent :=
            replaceHeaderWithMetadataValue fileContent g.header currentValue.asString
          if fails (.writeDoc path updatedContent) then
            (st, [.readDoc path, .writeDoc path updatedContent], true)
          else
            (PluginState.mk
              (st.lastMetadataValues.set (cacheKey path g.watchedField) currentValue)
              (fun p => if p = path then updatedContent else st.vaultContent p),
             [.readDoc path, .writeDoc path updatedContent], false)
      else (st, [], false)
    else (st, [], false)

/-- Processing of a single command group inside processCommandGroups: if
the group is active and the watched field is truthy and differs from the
cached previous value, execute the command only when a previous value
exists (first observation is suppressed); in every non-throwing branch of
the active-and-truthy case the cache entry is overwritten with the
current value, mirroring the unconditional assignment in the source. -/
def processCommandGroup (fails : Effect → Bool) (path : String) (metadata : Metadata)
    (g : CommandGroup) (st : PluginState) : PluginState × List Effect × Bool :=
  match metadata g.watchedField with
  | none => (st, [], false)
  | some currentValue =>
    if g.active && currentValue.truthy then
      let previousValue := st.lastMetadataValues (cacheKey path g.watchedField)
      if some currentValue ≠ previousValue then
        if previousValue ≠ none then
          if fails (.execCommand g.command) then (st, [.execCommand g.command], true)
          else
            (PluginState.mk
              (st.lastMetadataValues.set (cacheKey path g.watchedField) currentValue)
              st.vaultContent,
             [.execCommand g.command], false)
        else
          (PluginState.mk
            (st.lastMetadataValues.set (cacheKey path g.watchedField) currentValue)
            st.vaultContent,
           [], false)
      else
        (PluginState.mk
          (st.lastMetadataValues.set (cacheKey path g.watchedField) currentValue)
          st.vaultContent,
         [], false)
    else (st, [], false)

/-- The for-loop of processHeaderGroups: groups in configuration order; a
thrown exception propagates, skipping the remaining groups. -/
def processHeaderGroups (fails : Effect → Bool) (path : String) (metadata : Metadata) :
    List HeaderGroup → PluginState → PluginState × List Effect × Bool
  | [], st => (st, [], false)
  | g :: gs, st =>
    let r1 := processHeaderGroup fails path metadata g st
    if r1.2.2 then r1
    else
      let r2 := processHeaderGroups fails path metadata gs r1.1
      (r2.1, r1.2.1 ++ r2.2.1, r2.2.2)

/-- The for-loop of processCommandGroups: groups in configuration order; a
thrown exception propagates, skipping the remaining groups. -/
def processCommandGroups (fails : Effect → Bool) (path : String) (metadata : Metadata) :
    List CommandGroup → PluginState → PluginState × List Effect × Bool
  | [], st => (st, [], false)
  | g :: gs, st =>
    let r1 := processCommandGroup fails path metadata g st
    if r1.2.2 then r1
    else
      let r2 := processCommandGroups fails path metadata gs r1.1
      (r2.1, r1.2.1 ++ r2.2.1, r2.2.2)

/-- Embedding of onMetadataChanged: if the file has front-matter, process
the header groups then the command groups; an uncaught exception from
either pass propagates out of the handler. -/
def onMetadataChanged (fails : Effect → Bool) (settings : Settings) (path : String)
    (frontmatter : Option Metadata) (st : PluginState) :
    PluginState × List Effect × Bool :=
  match frontmatter with
  | none => (st, [], false)
  | some metadata =>
    let r1 := processHeaderGroups fails path metadata settings.headerGroups st
    if r1.2.2 then r1
    else
      let r2 := processCommandGroups fails path metadata settings.commandGroups r1.1
      (r2.1, r1.2.1 ++ r2.2.1, r2.2.2)

/-- The common watchedField-active shape of a group, as iterated by the
spread concatenation in updateLastMetadataValues. -/
structure WatchBase where
  watchedField : String
  active : Bool

/-- The base part of a header group. -/
def HeaderGroup.base (g : HeaderGroup) : WatchBase :=
  WatchBase.mk g.watchedField g.active

/-- The base part of a command group. -/
def CommandGroup.base (g : CommandGroup) : WatchBase :=
  WatchBase.mk g.watchedField g.active

/-- The body of the seeding loop in updateLastMetadataValues: an active
group with a truthy watched field overwrites its cache entry with the
current value; otherwise the cache is untouched. -/
def seedGroup (path : String) (metadata : Metadata) (c : Cache) (b : WatchBase) : Cache :=
  match metadata b.watchedField with
  | none => c
  | some v =>
    if b.active && v.truthy then c.set (cacheKey path b.watchedField) v else c

/-- Embedding of updateLastMetadataValues, invoked on file-open and at
plugin load: iterate the header groups followed by the command groups,
seeding the cache for each active group whose field is truthy. -/
def updateLastMetadataValues (settings : Settings) (path : String)
    (frontmatter : Option Metadata) (c : Cache) : Cache :=
  match frontmatter with
  | none => c
  | some metadata =>
    (settings.headerGroups.map HeaderGroup.base
      ++ settings.commandGroups.map CommandGroup.base).foldl
      (seedGroup path metadata) c

/-- The oracle under which every external call succeeds (normal operation). -/
def noFail : Effect → Bool := fun _ => false

/-! Concrete scenarios used to evaluate the development on closed inputs. -/

/-- A snapshot mapping the field status to the string done. -/
def mdStatus : Metadata :=
  fun f => if f = "status" then some (.str "done") else none

/-- The empty baseline cache. -/
def cacheEmpty : Cache := fun _ => none

/-- A state with an empty cache and a three-line document everywhere. -/
def stFresh : PluginState :=
  PluginState.mk cacheEmpty (fun _ => "# Title\n## Status x\nbody")

/-- A state whose cache already holds the snapshot value of status for
the document notes/a.md. -/
def stSeeded : PluginState :=
  PluginState.mk
    (fun k => if k = cacheKey "notes/a.md" "status" then some (.str "done") else none)
    (fun _ => "# Title\n## Status x\nbody")

/-- One active header group watching status with header prefix found in
the document of stFresh. -/
def setHdrStatus : Settings :=
  Settings.mk [HeaderGroup.mk "status" "## Status" true] []

/-- One active command group watching status. -/
def setCmdStatus : Settings :=
  Settings.mk [] [CommandGroup.mk "status" "cmd.one" true]

/-- An active header group and an active command group both watching
status. -/
def setBoth : Settings :=
  Settings.mk [HeaderGroup.mk "status" "## Status" true]
    [CommandGroup.mk "status" "cmd.one" true]

/-- One active header group with an empty watched field. -/
def setHdrEmptyField : Settings :=
  Settings.mk [HeaderGroup.mk "" "## Status" true] []

/-- A snapshot whose front-matter has a truthy value at the empty key. -/
def mdEmptyKey : Metadata :=
  fun f => if f = "" then some (.str "x") else none

/-- Two active command groups on distinct fields and commands. -/
def setTwoCmds : Settings :=
  Settings.mk [] [CommandGroup.mk "a" "c1" true, CommandGroup.mk "b" "c2" true]

/-- A snapshot where both fields a and b changed from their baselines. -/
def mdTwo : Metadata :=
  fun f => if f = "a" then some (.str "A2")
    else if f = "b" then some (.str "B2") else none

/-- A state caching baselines for fields a and b of notes/a.md. -/
def stTwo : PluginState :=
  PluginState.mk
    (fun k => if k = cacheKey "notes/a.md" "a" then some (.str "A1")
      else if k = cacheKey "notes/a.md" "b" then some (.str "B1") else none)
    (fun _ => "body")

/-- An oracle making the execution of command c1 throw. -/
def failsCmdOne : Effect → Bool := fun e => e == Effect.execCommand "c1"

/-- One inactive header group watching status. -/
def setInactive : Settings :=
  Settings.mk [HeaderGroup.mk "status" "## Status" false] []

/-! Supporting lemmas about the text rewrite. -/

/-- The characters of a composite cache key. -/
theorem cacheKey_data (path f : String) :
    (cacheKey path f).data = path.data ++ '-' :: f.data := by
  simp [cacheKey]

/-- Two composite keys for the same path agree only on equal fields. -/
theorem cacheKey_field_inj (path f g : String)
    (h : cacheKey path f = cacheKey path g) : f = g := by
  have hd := congrArg String.data h
  rw [cacheKey_data, cacheKey_data] at hd
  exact String.ext (List.append_cancel_left hd |> List.cons.inj |>.2)

/-- Splitting a character list at a separator character occurring in
neither prefix is unambiguous. -/
theorem sep_split_inj (sep : Char) (a b c d : List Char)
    (ha : sep ∉ a) (hc : sep ∉ c) (h : a ++ sep :: b = c ++ sep :: d) :
    a = c ∧ b = d := by
  induction a generalizing c with
  | nil =>
    cases c with
    | nil => simpa using h
    | cons x c =>
      simp only [List.nil_append, List.cons_append, List.cons.injEq] at h
      exact absurd (h.1 ▸ List.mem_cons_self x c) hc
  | cons x a ih =>
    cases c with
    | nil =>
      simp only [List.cons_append, List.nil_append, List.cons.injEq] at h
      exact absurd (h.1.symm ▸ List.mem_cons_self x a) ha
    | cons y c =>
      simp only [List.cons_append, List.cons.injEq] at h
      obtain ⟨hac, hbd⟩ := ih c (fun hm => ha (List.mem_cons_of_mem _ hm))
        (fun hm => hc (List.mem_cons_of_mem _ hm)) h.2
      exact ⟨by rw [h.1, hac], hbd⟩

/-! Supporting lemmas about single-group processing. -/

/-- A header group only emits document reads and writes of its path. -/
theorem processHeaderGroup_trace (fails : Effect → Bool) (path : String)
    (metadata : Metadata) (g : HeaderGroup) (st : PluginState) :
    ∀ e ∈ (processHeaderGroup fails path metadata g st).2.1,
      e = Effect.readDoc path ∨ ∃ c, e = Effect.writeDoc path c := by
  unfold processHeaderGroup
  cases metadata g.watchedField <;> dsimp only <;> (repeat' split)
  all_goals (intro e he; simp_all; try tauto)

/-- A header group leaves a cache entry unchanged or overwrites the key of
its own watched field with the truthy current snapshot value. -/
theorem processHeaderGroup_cache (fails : Effect → Bool) (path : String)
    (metadata : Metadata) (g : HeaderGroup) (st : PluginState) (k : String) :
    (processHeaderGroup fails path metadata g st).1.lastMetadataValues k
        = st.lastMetadataValues k
      ∨ ∃ v, k = cacheKey path g.watchedField ∧ metadata g.watchedField = some v
          ∧ v.truthy = true ∧ g.active = true
          ∧ (processHeaderGroup fails path metadata g st).1.lastMetadataValues k
              = some v := by
  unfold processHeaderGroup
  cases hmv : metadata g.watchedField with
  | none => exact Or.inl rfl
  | some v =>
    dsimp only
    by_cases hat : (g.active && v.truthy) = true
    · rw [if_pos hat]
      by_cases hk : k = cacheKey path g.watchedField
      · (repeat' split)
        all_goals first
          | exact Or.inl rfl
          | exact Or.inr ⟨v, hk, rfl, (Bool.and_eq_true _ _ ▸ hat).2,
              (Bool.and_eq_true _ _ ▸ hat).1, by simp [Cache.set, hk]⟩
      · (repeat' split)
        all_goals first
          | exact Or.inl rfl
          | exact Or.inl (by simp [Cache.set, hk])
    · rw [if_neg hat]; exact Or.inl rfl

/-- A command group leaves a cache entry unchanged or overwrites the key of
its own watched field with the truthy current snapshot value. -/
theorem processCommandGroup_cache (fails : Effect → Bool) (path : String)
    (metadata : Metadata) (g : CommandGroup) (st : PluginState) (k : String) :
    (processCommandGroup fails path metadata g st).1.lastMetadataValues k
        = st.lastMetadataValues k
      ∨ ∃ v, k = cacheKey path g.watchedField ∧ metadata g.watchedField = some v
          ∧ v.truthy = true ∧ g.active = true
          ∧ (processCommandGroup fails path metadata g st).1.lastMetadataValues k
              = some v := by
  unfold processCommandGroup
  cases hmv : metadata g.watchedField with
  | none => exact Or.inl rfl
  | some v =>
    dsimp only
    by_cases hat : (g.active && v.truthy) = true
    · rw [if_pos hat]
      by_cases hk : k = cacheKey path g.watchedField
      · (repeat' split)
        all_goals first
          | exact Or.inl rfl
          | exact Or.inr ⟨v, hk, rfl, (Bool.and_eq_true _ _ ▸ hat).2,
              (Bool.and_eq_true _ _ ▸ hat).1, by simp [Cache.set, hk]⟩
      · (repeat' split)
        all_goals first
          | exact Or.inl rfl
          | exact Or.inl (by simp [Cache.set, hk])
    · rw [if_neg hat]; exact Or.inl rfl

/-- Under the all-succeeding oracle a header group never escapes. -/
theorem processHeaderGroup_noFail_esc (path : String) (metadata : Metadata)
    (g : HeaderGroup) (st : PluginState) :
    (processHeaderGroup noFail path metadata g st).2.2 = false := by
  unfold processHeaderGroup noFail
  cases metadata g.watchedField <;> dsimp only <;> (repeat' split) <;> simp_all

/-- Under the all-succeeding oracle a command group never escapes. -/
theorem processCommandGroup_noFail_esc (path : String) (metadata : Metadata)
    (g : CommandGroup) (st : PluginState) :
    (processCommandGroup noFail path metadata g st).2.2 = false := by
  unfold processCommandGroup noFail
  cases metadata g.watchedField <;> dsimp only <;> (repeat' split) <;> simp_all

/-! Supporting lemmas about the two dispatch passes. -/

/-- The header pass only emits document reads and writes of its path. -/
theorem processHeaderGroups_trace (fails : Effect → Bool) (path : String)
    (metadata : Metadata) :
    ∀ (l : List HeaderGroup) (st : PluginState),
    ∀ e ∈ (processHeaderGroups fails path metadata l st).2.1,
      e = Effect.readDoc path ∨ ∃ c, e = Effect.writeDoc path c := by
  intro l
  induction l with
  | nil => intro st e he; simp [processHeaderGroups] at he
  | cons g gs ih =>
    intro st e he
    unfold processHeaderGroups at he
    dsimp only at he
    split at he
    · exact processHeaderGroup_trace _ _ _ _ _ e he
    · dsimp only at he
      rw [List.mem_append] at he
      cases he with
      | inl h => exact processHeaderGroup_trace _ _ _ _ _ e h
      | inr h => exact ih _ e h

/-- Under the all-succeeding oracle the header pass never escapes. -/
theorem processHeaderGroups_noFail_esc (path : String) (metadata : Metadata) :
    ∀ (l : List HeaderGroup) (st : PluginState),
    (processHeaderGroups noFail path metadata l st).2.2 = false := by
  intro l
  induction l with
  | nil => intro st; rfl
  | cons g gs ih =>
    intro st
    unfold processHeaderGroups
    dsimp only
    rw [processHeaderGroup_noFail_esc]
    simp only [Bool.false_eq_true, if_false]
    exact ih _

/-- Under the all-succeeding oracle the command pass never escapes. -/
theorem processCommandGroups_noFail_esc (path : String) (metadata : Metadata) :
    ∀ (l : List CommandGroup) (st : PluginState),
    (processCommandGroups noFail path metadata l st).2.2 = false := by
  intro l
  induction l with
  | nil => intro st; rfl
  | cons g gs ih =>
    intro st
    unfold processCommandGroups
    dsimp only
    rw [processCommandGroup_noFail_esc]
    simp only [Bool.false_eq_true, if_false]
    exact ih _

/-- The header pass leaves a cache entry unchanged or overwrites the key
of some watched field with the truthy current snapshot value. -/
theorem processHeaderGroups_cache (fails : Effect → Bool) (path : String)
    (metadata : Metadata) :
    ∀ (l : List HeaderGroup) (st : PluginState) (k : String),
    (processHeaderGroups fails path metadata l st).1.lastMetadataValues k
        = st.lastMetadataValues k
      ∨ ∃ f v, k = cacheKey path f ∧ metadata f = some v ∧ v.truthy = true
          ∧ (processHeaderGroups fails path metadata l st).1.lastMetadataValues k
              = some v := by
  intro l
  induction l with
  | nil => intro st k; exact Or.inl rfl
  | cons g gs ih =>
    intro st k
    unfold processHeaderGroups
    dsimp only
    split
    · rcases processHeaderGroup_cache fails path metadata g st k with h | ⟨v, hk, hm, ht, ha, hv⟩
      · exact Or.inl h
      · exact Or.inr ⟨g.watchedField, v, hk, hm, ht, hv⟩
    · dsimp only
      rcases ih (processHeaderGroup fails path metadata g st).1 k with h | ⟨f, v, hk, hm, ht, hv⟩
      · rw [h]
        rcases processHeaderGroup_cache fails path metadata g st k with h1 | ⟨v, hk, hm, ht, ha, hv⟩
        · exact Or.inl h1
        · exact Or.inr ⟨g.watchedField, v, hk, hm, ht, hv⟩
      · exact Or.inr ⟨f, v, hk, hm, ht, hv⟩

/-- The command pass leaves a cache entry unchanged or overwrites the key
of some watched field with the truthy current snapshot value. -/
theorem processCommandGroups_cache (fails : Effect → Bool) (path : String)
    (metadata : Metadata) :
    ∀ (l : List CommandGroup) (st : PluginState) (k : String),
    (processCommandGroups fails path metadata l st).1.lastMetadataValues k
        = st.lastMetadataValues k
      ∨ ∃ f v, k = cacheKey path f ∧ metadata f = some v ∧ v.truthy = true
          ∧ (processCommandGroups fails path metadata l st).1.lastMetadataValues k
              = some v := by
  intro l
  induction l with
  | nil => intro st k; exact Or.inl rfl
  | cons g gs ih =>
    intro st k
    unfold processCommandGroups
    dsimp only
    split
    · rcases processCommandGroup_cache fails path metadata g st k with h | ⟨v, hk, hm, ht, ha, hv⟩
      · exact Or.inl h
      · exact Or.inr ⟨g.watchedField, v, hk, hm, ht, hv⟩
    · dsimp only
      rcases ih (processCommandGroup fails path metadata g st).1 k with h | ⟨f, v, hk, hm, ht, hv⟩
      · rw [h]
        rcases processCommandGroup_cache fails path metadata g st k with h1 | ⟨v, hk, hm, ht, ha, hv⟩
        · exact Or.inl h1
        · exact Or.inr ⟨g.watchedField, v, hk, hm, ht, hv⟩
      · exact Or.inr ⟨f, v, hk, hm, ht, hv⟩

/-- A cache entry already holding the current snapshot value of its own
field keeps that value across the header pass. -/
theorem processHeaderGroups_cache_persist (fails : Effect → Bool) (path : String)
    (metadata : Metadata) (l : List HeaderGroup) (st : PluginState) (f : String)
    (v : JVal) (hm : metadata f = some v)
    (hc : st.lastMetadataValues (cacheKey path f) = some v) :
    (processHeaderGroups fails path metadata l st).1.lastMetadataValues
      (cacheKey path f) = some v := by
  rcases processHeaderGroups_cache fails path metadata l st (cacheKey path f) with
    h | ⟨f', v', hk, hm', ht', hv'⟩
  · rw [h, hc]
  · have hf : f = f' := cacheKey_field_inj path f f' hk
    subst hf
    rw [hm] at hm'
    rw [hv', Option.some.inj hm']

/-- A cache entry already holding the current snapshot value of its own
field keeps that value across the command pass. -/
theorem processCommandGroups_cache_persist (fails : Effect → Bool) (path : String)
    (metadata : Metadata) (l : List CommandGroup) (st : PluginState) (f : String)
    (v : JVal) (hm : metadata f = some v)
    (hc : st.lastMetadataValues (cacheKey path f) = some v) :
    (processCommandGroups fails path metadata l st).1.lastMetadataValues
      (cacheKey path f) = some v := by
  rcases processCommandGroups_cache fails path metadata l st (cacheKey path f) with
    h | ⟨f', v', hk, hm', ht', hv'⟩
  · rw [h, hc]
  · have hf : f = f' := cacheKey_field_inj path f f' hk
    subst hf
    rw [hm] at hm'
    rw [hv', Option.some.inj hm']

/-- Across the header pass, a cache entry that is absent or holds the
current snapshot value of its own field stays absent or at that value. -/
theorem processHeaderGroups_cache_keyOk (fails : Effect → Bool) (path : String)
    (metadata : Metadata) (l : List HeaderGroup) (st : PluginState) (f : String)
    (v : JVal) (hm : metadata f = some v)
    (hc : st.lastMetadataValues (cacheKey path f) = none
      ∨ st.lastMetadataValues (cacheKey path f) = some v) :
    (processHeaderGroups fails path metadata l st).1.lastMetadataValues
        (cacheKey path f) = none
      ∨ (processHeaderGroups fails path metadata l st).1.lastMetadataValues
        (cacheKey path f) = some v := by
  rcases processHeaderGroups_cache fails path metadata l st (cacheKey path f) with
    h | ⟨f', v', hk, hm', ht', hv'⟩
  · rw [h]; exact hc
  · have hf : f = f' := cacheKey_field_inj path f f' hk
    subst hf
    rw [hm] at hm'
    exact Or.inr (by rw [hv', Option.some.inj hm'])

/-! Supporting lemmas for unchanged snapshots and first observations. -/

/-- A header group whose cached value already equals the current snapshot
value (whenever it is active with a truthy field) does nothing at all. -/
theorem processHeaderGroup_noop (path : String) (metadata : Metadata)
    (g : HeaderGroup) (st : PluginState)
    (h : ∀ v, g.active = true → metadata g.watchedField = some v → v.truthy = true →
      st.lastMetadataValues (cacheKey path g.watchedField) = some v) :
    processHeaderGroup noFail path metadata g st = (st, [], false) := by
  unfold processHeaderGroup
  cases hmv : metadata g.watchedField with
  | none => rfl
  | some v =>
    dsimp only
    by_cases hat : (g.active && v.truthy) = true
    · rw [if_pos hat]
      rw [h v (Bool.and_eq_true _ _ ▸ hat).1 hmv (Bool.and_eq_true _ _ ▸ hat).2]
      simp
    · rw [if_neg hat]

/-- A command group whose cached value already equals the current snapshot
value (whenever it is active with a truthy field) emits no effect, does
not escape, and leaves every cache entry and the store pointwise as they
were. -/
theorem processCommandGroup_noop (path : String) (metadata : Metadata)
    (g : CommandGroup) (st : PluginState)
    (h : ∀ v, g.active = true → metadata g.watchedField = some v → v.truthy = true →
      st.lastMetadataValues (cacheKey path g.watchedField) = some v) :
    (processCommandGroup noFail path metadata g st).2.1 = []
    ∧ (processCommandGroup noFail path metadata g st).2.2 = false
    ∧ (∀ k, (processCommandGroup noFail path metadata g st).1.lastMetadataValues k
        = st.lastMetadataValues k)
    ∧ (processCommandGroup noFail path metadata g st).1.vaultContent
        = st.vaultContent := by
  unfold processCommandGroup
  cases hmv : metadata g.watchedField with
  | none => exact ⟨rfl, rfl, fun k => rfl, rfl⟩
  | some v =>
    dsimp only
    by_cases hat : (g.active && v.truthy) = true
    · rw [if_pos hat]
      have hprev := h v (Bool.and_eq_true _ _ ▸ hat).1 hmv (Bool.and_eq_true _ _ ▸ hat).2
      rw [hprev]
      rw [if_neg (by simp : ¬ (some v ≠ some v))]
      refine ⟨rfl, rfl, fun k => ?_, rfl⟩
      dsimp only [Cache.set]
      split
      · rename_i hk; rw [hk, hprev]
      · rfl
    · rw [if_neg hat]
      exact ⟨rfl, rfl, fun k => rfl, rfl⟩

/-- A header pass over a snapshot whose values all equal the cached
baselines is the identity: no effects, no escape, same state. -/
theorem processHeaderGroups_noop (path : String) (metadata : Metadata) :
    ∀ (l : List HeaderGroup) (st : PluginState),
    (∀ g ∈ l, ∀ v, g.active = true → metadata g.watchedField = some v →
      v.truthy = true →
      st.lastMetadataValues (cacheKey path g.watchedField) = some v) →
    processHeaderGroups noFail path metadata l st = (st, [], false) := by
  intro l
  induction l with
  | nil => intro st h; rfl
  | cons g gs ih =>
    intro st h
    have hg := processHeaderGroup_noop path metadata g st
      (h g (List.mem_cons_self g gs))
    unfold processHeaderGroups
    rw [hg]
    dsimp only
    simp only [Bool.false_eq_true, if_false]
    rw [ih st (fun g' hg' => h g' (List.mem_cons_of_mem _ hg'))]
    rfl

/-- A command pass over a snapshot whose values all equal the cached
baselines emits no effect, does not escape, and leaves the cache
pointwise unchanged. -/
theorem processCommandGroups_noop (path : String) (metadata : Metadata) :
    ∀ (l : List CommandGroup) (st : PluginState),
    (∀ g ∈ l, ∀ v, g.active = true → metadata g.watchedField = some v →
      v.truthy = true →
      st.lastMetadataValues (cacheKey path g.watchedField) = some v) →
    (processCommandGroups noFail path metadata l st).2.1 = []
    ∧ (processCommandGroups noFail path metadata l st).2.2 = false
    ∧ ∀ k, (processCommandGroups noFail path metadata l st).1.lastMetadataValues k
        = st.lastMetadataValues k := by
  intro l
  induction l with
  | nil => intro st h; exact ⟨rfl, rfl, fun k => rfl⟩
  | cons g gs ih =>
    intro st h
    obtain ⟨ht1, ht2, ht3, ht4⟩ := processCommandGroup_noop path metadata g st
      (h g (List.mem_cons_self g gs))
    obtain ⟨it1, it2, it3⟩ := ih (processCommandGroup noFail path metadata g st).1
      (fun g' hg' v ha hm htr => by
        rw [ht3]; exact h g' (List.mem_cons_of_mem _ hg') v ha hm htr)
    unfold processCommandGroups
    dsimp only
    rw [ht2]
    simp only [Bool.false_eq_true, if_false]
    refine ⟨?_, it2, ?_⟩
    · rw [ht1, it1, List.nil_append]
    · intro k
      rw [it3, ht3]

/-- An active command group with a truthy field whose cache entry is
absent or already current silently re-seeds the entry and executes
nothing: first observations are suppressed, repeats change nothing. -/
theorem processCommandGroup_seeds (path : String) (metadata : Metadata)
    (g : CommandGroup) (st : PluginState) (v : JVal)
    (hat : (g.active && v.truthy) = true) (hmv : metadata g.watchedField = some v)
    (hok : st.lastMetadataValues (cacheKey path g.watchedField) = none
      ∨ st.lastMetadataValues (cacheKey path g.watchedField) = some v) :
    processCommandGroup noFail path metadata g st
      = (PluginState.mk
          (st.lastMetadataValues.set (cacheKey path g.watchedField) v)
          st.vaultContent, [], false) := by
  unfold processCommandGroup
  rw [hmv]
  dsimp only
  rw [if_pos hat]
  rcases hok with h | h <;> rw [h]
  · rw [if_pos (by simp : (some v ≠ (none : Option JVal))),
      if_neg (by simp : ¬ ((none : Option JVal) ≠ none))]
  · rw [if_neg (by simp : ¬ (some v ≠ some v))]

/-- An active header group with a truthy field and no cached previous
value fires: it reads the document, writes back the rewritten content,
and seeds the cache entry with the current value. -/
theorem processHeaderGroup_fires (path : String) (metadata : Metadata)
    (g : HeaderGroup) (st : PluginState) (v : JVal)
    (hat : (g.active && v.truthy) = true) (hmv : metadata g.watchedField = some v)
    (hnone : st.lastMetadataValues (cacheKey path g.watchedField) = none) :
    processHeaderGroup noFail path metadata g st
      = (PluginState.mk
          (st.lastMetadataValues.set (cacheKey path g.watchedField) v)
          (fun p => if p = path then
              replaceHeaderWithMetadataValue (st.vaultContent path) g.header v.asString
            else st.vaultContent p),
         [Effect.readDoc path,
          Effect.writeDoc path
            (replaceHeaderWithMetadataValue (st.vaultContent path) g.header v.asString)],
         false) := by
  unfold processHeaderGroup noFail
  rw [hmv]
  dsimp only
  rw [if_pos hat, hnone]
  rw [if_pos (by simp : (some v ≠ (none : Option JVal)))]
  simp only [Bool.false_eq_true, if_false]

/-- Command pass on first observations: when every active command group
with a truthy field has an absent or already-current cache entry, the
pass executes no command at all and afterwards every such entry holds the
current snapshot value. -/
theorem processCommandGroups_suppressed (path : String) (metadata : Metadata) :
    ∀ (l : List CommandGroup) (st : PluginState),
    (∀ g ∈ l, ∀ v, g.active = true → metadata g.watchedField = some v →
      v.truthy = true →
      st.lastMetadataValues (cacheKey path g.watchedField) = none
      ∨ st.lastMetadataValues (cacheKey path g.watchedField) = some v) →
    (processCommandGroups noFail path metadata l st).2.1 = []
    ∧ ∀ g ∈ l, ∀ v, g.active = true → metadata g.watchedField = some v →
        v.truthy = true →
        (processCommandGroups noFail path metadata l st).1.lastMetadataValues
          (cacheKey path g.watchedField) = some v := by
  intro l
  induction l with
  | nil => intro st h; exact ⟨rfl, fun g hg => absurd hg (List.not_mem_nil g)⟩
  | cons g gs ih =>
    intro st h
    cases hmv : metadata g.watchedField with
    | none =>
      have hg1 : processCommandGroup noFail path metadata g st = (st, [], false) := by
        unfold processCommandGroup
        rw [hmv]
      unfold processCommandGroups
      rw [hg1]
      dsimp only
      simp only [Bool.false_eq_true, if_false]
      obtain ⟨it1, it2⟩ := ih st (fun g' hg' => h g' (List.mem_cons_of_mem _ hg'))
      refine ⟨by simp [it1], ?_⟩
      intro g' hg' v ha hm ht
      rcases List.mem_cons.mp hg' with rfl | hmem
      · rw [hm] at hmv; cases hmv
      · exact it2 g' hmem v ha hm ht
    | some v =>
      by_cases hat : (g.active && v.truthy) = true
      · have hok := fun (ha : g.active = true) (ht : v.truthy = true) =>
          h g (List.mem_cons_self g gs) v ha hmv ht
        have hg1 := processCommandGroup_seeds path metadata g st v hat hmv
          (hok (Bool.and_eq_true _ _ ▸ hat).1 (Bool.and_eq_true _ _ ▸ hat).2)
        unfold processCommandGroups
        rw [hg1]
        dsimp only
        simp only [Bool.false_eq_true, if_false]
        have hnext : ∀ g' ∈ gs, ∀ v', g'.active = true →
            metadata g'.watchedField = some v' → v'.truthy = true →
            (st.lastMetadataValues.set (cacheKey path g.watchedField) v)
              (cacheKey path g'.watchedField) = none
            ∨ (st.lastMetadataValues.set (cacheKey path g.watchedField) v)
              (cacheKey path g'.watchedField) = some v' := by
          intro g' hg' v' ha' hm' ht'
          dsimp only [Cache.set]
          split
          · rename_i hkk
            have hff : g'.watchedField = g.watchedField :=
              cacheKey_field_inj path g'.watchedField g.watchedField hkk
            rw [hff, hmv] at hm'
            exact Or.inr (by rw [Option.some.inj hm'])
          · exact h g' (List.mem_cons_of_mem _ hg') v' ha' hm' ht'
        obtain ⟨it1, it2⟩ := ih (PluginState.mk
          (st.lastMetadataValues.set (cacheKey path g.watchedField) v)
          st.vaultContent) hnext
        refine ⟨by simp [it1], ?_⟩
        intro g' hg' v' ha hm ht
        rcases List.mem_cons.mp hg' with rfl | hmem
        · rw [hmv] at hm
          rw [← Option.some.inj hm]
          exact processCommandGroups_cache_persist noFail path metadata gs _
            g'.watchedField v hmv (by simp [Cache.set])
        · exact it2 g' hmem v' ha hm ht
      · have hg1 : processCommandGroup noFail path metadata g st = (st, [], false) := by
          unfold processCommandGroup
          rw [hmv]
          dsimp only
          rw [if_neg hat]
        unfold processCommandGroups
        rw [hg1]
        dsimp only
        simp only [Bool.false_eq_true, if_false]
        obtain ⟨it1, it2⟩ := ih st (fun g' hg' => h g' (List.mem_cons_of_mem _ hg'))
        refine ⟨by simp [it1], ?_⟩
        intro g' hg' v' ha hm ht
        rcases List.mem_cons.mp hg' with rfl | hmem
        · rw [hmv] at hm
          rw [Option.some.inj hm, ha] at hat
          exact absurd ((Bool.and_eq_true _ _).mpr ⟨rfl, ht⟩) hat
        · exact it2 g' hmem v' ha hm ht

/-- Header pass on a first observation: when some active header group
watches a truthy field with no cached previous value, the pass reads the
document, writes back a rewrite inserting the current value, and seeds
the cache entry with that value. -/
theorem processHeaderGroups_fires (path : String) (metadata : Metadata)
    (f : String) (v : JVal) (hm : metadata f = some v) (ht : v.truthy = true) :
    ∀ (l : List HeaderGroup) (st : PluginState),
    (∃ g ∈ l, g.active = true ∧ g.watchedField = f) →
    st.lastMetadataValues (cacheKey path f) = none →
    Effect.readDoc path ∈ (processHeaderGroups noFail path metadata l st).2.1
    ∧ (∃ body hdr,
        Effect.writeDoc path (replaceHeaderWithMetadataValue body hdr v.asString)
          ∈ (processHeaderGroups noFail path metadata l st).2.1)
    ∧ (processHeaderGroups noFail path metadata l st).1.lastMetadataValues
        (cacheKey path f) = some v := by
  intro l
  induction l with
  | nil =>
    intro st hex hnone
    obtain ⟨g, hg, _⟩ := hex
    exact absurd hg (List.not_mem_nil g)
  | cons g gs ih =>
    intro st hex hnone
    by_cases hgf : g.watchedField = f ∧ g.active = true
    · obtain ⟨hgf1, hga⟩ := hgf
      have hmv : metadata g.watchedField = some v := by rw [hgf1, hm]
      have hat : (g.active && v.truthy) = true :=
        (Bool.and_eq_true _ _).mpr ⟨hga, ht⟩
      have hg1 := processHeaderGroup_fires path metadata g st v hat hmv
        (by rw [hgf1, hnone])
      unfold processHeaderGroups
      rw [hg1]
      dsimp only
      simp only [Bool.false_eq_true, if_false]
      refine ⟨List.mem_append_left _ (List.mem_cons_self _ _), ?_, ?_⟩
      · exact ⟨st.vaultContent path, g.header,
          List.mem_append_left _ (List.mem_cons_of_mem _ (List.mem_cons_self _ _))⟩
      · refine processHeaderGroups_cache_persist noFail path metadata gs _ f v hm ?_
        dsimp only [Cache.set]
        rw [if_pos (by rw [hgf1])]
    · obtain ⟨g0, hg0, hg0a, hg0f⟩ := hex
      have hg0gs : g0 ∈ gs := by
        rcases List.mem_cons.mp hg0 with rfl | hmem
        · exact absurd ⟨hg0f, hg0a⟩ hgf
        · exact hmem
      have hnone' : (processHeaderGroup noFail path metadata g st).1.lastMetadataValues
          (cacheKey path f) = none := by
        rcases processHeaderGroup_cache noFail path metadata g st (cacheKey path f) with
          h1 | ⟨v', hk, hm', ht', ha', hv'⟩
        · rw [h1, hnone]
        · have hff : f = g.watchedField := cacheKey_field_inj path f g.watchedField hk
          exact absurd ⟨hff.symm, ha'⟩ hgf
      obtain ⟨ir, iw, ic⟩ := ih (processHeaderGroup noFail path metadata g st).1
        ⟨g0, hg0gs, hg0a, hg0f⟩ hnone'
      unfold processHeaderGroups
      dsimp only
      rw [processHeaderGroup_noFail_esc]
      simp only [Bool.false_eq_true, if_false]
      refine ⟨List.mem_append_right _ ir, ?_, ic⟩
      obtain ⟨body, hdr, hw⟩ := iw
      exact ⟨body, hdr, List.mem_append_right _ hw⟩

/-- With the all-succeeding oracle, a metadata change with front-matter is
the header pass followed by the command pass, with concatenated traces
and no escape. -/
theorem onMetadataChanged_noFail_eq (settings : Settings) (path : String)
    (metadata : Metadata) (st : PluginState) :
    onMetadataChanged noFail settings path (some metadata) st
      = ((processCommandGroups noFail path metadata settings.commandGroups
            (processHeaderGroups noFail path metadata settings.headerGroups st).1).1,
         (processHeaderGroups noFail path metadata settings.headerGroups st).2.1
           ++ (processCommandGroups noFail path metadata settings.commandGroups
              (processHeaderGroups noFail path metadata settings.headerGroups st).1).2.1,
         false) := by
  unfold onMetadataChanged
  dsimp only
  rw [processHeaderGroups_noFail_esc]
  simp only [Bool.false_eq_true, if_false]
  rw [processCommandGroups_noFail_esc]

/-- One seeding step leaves an entry unchanged or overwrites the key of
an active group with the truthy current value of its own field. -/
theorem seedGroup_cache (path : String) (metadata : Metadata) (c : Cache)
    (b : WatchBase) (k : String) :
    seedGroup path metadata c b k = c k
    ∨ ∃ v, k = cacheKey path b.watchedField ∧ metadata b.watchedField = some v
        ∧ v.truthy = true ∧ b.active = true
        ∧ seedGroup path metadata c b k = some v := by
  unfold seedGroup
  cases hmv : metadata b.watchedField with
  | none => exact Or.inl rfl
  | some v =>
    dsimp only
    by_cases hat : (b.active && v.truthy) = true
    · rw [if_pos hat]
      by_cases hk : k = cacheKey path b.watchedField
      · exact Or.inr ⟨v, hk, rfl, (Bool.and_eq_true _ _ ▸ hat).2,
          (Bool.and_eq_true _ _ ▸ hat).1, by simp [Cache.set, hk]⟩
      · exact Or.inl (by simp [Cache.set, hk])
    · rw [if_neg hat]
      exact Or.inl rfl

/-- The seeding fold leaves an entry unchanged or holds the truthy
current value of the field its key was written for. -/
theorem foldl_seedGroup_cache (path : String) (metadata : Metadata) :
    ∀ (l : List WatchBase) (c : Cache) (k : String),
    (l.foldl (seedGroup path metadata) c) k = c k
    ∨ ∃ f v, k = cacheKey path f ∧ metadata f = some v ∧ v.truthy = true
        ∧ (l.foldl (seedGroup path metadata) c) k = some v := by
  intro l
  induction l with
  | nil => intro c k; exact Or.inl rfl
  | cons b bs ih =>
    intro c k
    rw [List.foldl_cons]
    rcases ih (seedGroup path metadata c b) k with h | ⟨f, v, hk, hm, ht, hv⟩
    · rw [h]
      rcases seedGroup_cache path metadata c b k with h1 | ⟨v, hk, hm, ht, ha, hv⟩
      · exact Or.inl h1
      · exact Or.inr ⟨b.watchedField, v, hk, hm, ht, hv⟩
    · exact Or.inr ⟨f, v, hk, hm, ht, hv⟩

/-- An entry already holding the truthy current value of its own field
keeps that value across the seeding fold. -/
theorem foldl_seedGroup_persist (path : String) (metadata : Metadata)
    (l : List WatchBase) (c : Cache) (f : String) (v : JVal)
    (hm : metadata f = some v) (hc : c (cacheKey path f) = some v) :
    (l.foldl (seedGroup path metadata) c) (cacheKey path f) = some v := by
  rcases foldl_seedGroup_cache path metadata l c (cacheKey path f) with
    h | ⟨f', v', hk, hm', ht', hv'⟩
  · rw [h, hc]
  · have hf : f = f' := cacheKey_field_inj path f f' hk
    subst hf
    rw [hm] at hm'
    rw [hv', Option.some.inj hm']

/-- Every active group with a truthy field ends the seeding fold with its
entry equal to the current snapshot value. -/
theorem foldl_seedGroup_active (path : String) (metadata : Metadata) :
    ∀ (l : List WatchBase) (c : Cache),
    ∀ b ∈ l, ∀ v, b.active = true → metadata b.watchedField = some v →
    v.truthy = true →
    (l.foldl (seedGroup path metadata) c) (cacheKey path b.watchedField) = some v := by
  intro l
  induction l with
  | nil => intro c b hb; exact absurd hb (List.not_mem_nil b)
  | cons b0 bs ih =>
    intro c b hb v ha hm ht
    rw [List.foldl_cons]
    rcases List.mem_cons.mp hb with rfl | hmem
    · refine foldl_seedGroup_persist path metadata bs _ b.watchedField v hm ?_
      unfold seedGroup
      rw [hm]
      dsimp only
      rw [if_pos ((Bool.and_eq_true _ _).mpr ⟨ha, ht⟩)]
      simp [Cache.set]
    · exact ih (seedGroup path metadata c b0) b hmem v ha hm ht

/-- Entries whose key no active truthy group writes are untouched by the
seeding fold. -/
theorem foldl_seedGroup_untouched (path : String) (metadata : Metadata) :
    ∀ (l : List WatchBase) (c : Cache) (k : String),
    (∀ b ∈ l, ∀ v, b.active = true → metadata b.watchedField = some v →
      v.truthy = true → cacheKey path b.watchedField ≠ k) →
    (l.foldl (seedGroup path metadata) c) k = c k := by
  intro l
  induction l with
  | nil => intro c k h; rfl
  | cons b bs ih =>
    intro c k h
    rw [List.foldl_cons]
    rw [ih (seedGroup path metadata c b) k
      (fun b' hb' => h b' (List.mem_cons_of_mem _ hb'))]
    unfold seedGroup
    cases hmv : metadata b.watchedField with
    | none => rfl
    | some v =>
      dsimp only
      by_cases hat : (b.active && v.truthy) = true
      · rw [if_pos hat]
        dsimp only [Cache.set]
        rw [if_neg]
        intro hk
        exact h b (List.mem_cons_self b bs) v (Bool.and_eq_true _ _ ▸ hat).1 hmv
          (Bool.and_eq_true _ _ ▸ hat).2 hk.symm
      · rw [if_neg hat]

/-- One-step unfolding of the header pass. -/
theorem processHeaderGroups_cons (fails : Effect → Bool) (path : String)
    (metadata : Metadata) (g : HeaderGroup) (gs : List HeaderGroup) (st : PluginState) :
    processHeaderGroups fails path metadata (g :: gs) st
      = (if (processHeaderGroup fails path metadata g st).2.2
          then processHeaderGroup fails path metadata g st
          else
            ((processHeaderGroups fails path metadata gs
                (processHeaderGroup fails path metadata g st).1).1,
             (processHeaderGroup fails path metadata g st).2.1
               ++ (processHeaderGroups fails path metadata gs
                (processHeaderGroup fails path metadata g st).1).2.1,
             (processHeaderGroups fails path metadata gs
                (processHeaderGroup fails path metadata g st).1).2.2)) := rfl

/-- One-step unfolding of the command pass. -/
theorem processCommandGroups_cons (fails : Effect → Bool) (path : String)
    (metadata : Metadata) (g : CommandGroup) (gs : List CommandGroup) (st : PluginState) :
    processCommandGroups fails path metadata (g :: gs) st
      = (if (processCommandGroup fails path metadata g st).2.2
          then processCommandGroup fails path metadata g st
          else
            ((processCommandGroups fails path metadata gs
                (processCommandGroup fails path metadata g st).1).1,
             (processCommandGroup fails path metadata g st).2.1
               ++ (processCommandGroups fails path metadata gs
                (processCommandGroup fails path metadata g st).1).2.1,
             (processCommandGroups fails path metadata gs
                (processCommandGroup fails path metadata g st).1).2.2)) := rfl

/-- A header group with an empty watched field does nothing when the
snapshot has no truthy value at the empty key. -/
theorem processHeaderGroup_empty_field (path : String) (metadata : Metadata)
    (g : HeaderGroup) (st : PluginState)
    (hempty : ∀ v, metadata "" = some v → v.truthy = false)
    (hgf : g.watchedField = "") :
    processHeaderGroup noFail path metadata g st = (st, [], false) := by
  unfold processHeaderGroup
  rw [hgf]
  cases hmv : metadata "" with
  | none => rfl
  | some v =>
    dsimp only
    rw [if_neg (by simp [hempty v hmv])]

/-- A command group with an empty watched field does nothing when the
snapshot has no truthy value at the empty key. -/
theorem processCommandGroup_empty_field (path : String) (metadata : Metadata)
    (g : CommandGroup) (st : PluginState)
    (hempty : ∀ v, metadata "" = some v → v.truthy = false)
    (hgf : g.watchedField = "") :
    processCommandGroup noFail path metadata g st = (st, [], false) := by
  unfold processCommandGroup
  rw [hgf]
  cases hmv : metadata "" with
  | none => rfl
  | some v =>
    dsimp only
    rw [if_neg (by simp [hempty v hmv])]

/-- Dropping header groups with empty watched fields does not change the
header pass, when the snapshot has no truthy value at the empty key. -/
theorem processHeaderGroups_filter_empty (path : String) (metadata : Metadata)
    (hempty : ∀ v, metadata "" = some v → v.truthy = false) :
    ∀ (l : List HeaderGroup) (st : PluginState),
    processHeaderGroups noFail path metadata
        (l.filter fun g => g.watchedField != "") st
      = processHeaderGroups noFail path metadata l st := by
  intro l
  induction l with
  | nil => intro st; rfl
  | cons g gs ih =>
    intro st
    by_cases hgf : g.watchedField = ""
    · have hfil : (g :: gs).filter (fun g => g.watchedField != "")
          = gs.filter (fun g => g.watchedField != "") := by
        simp [List.filter_cons, hgf]
      rw [hfil, ih, processHeaderGroups_cons,
        processHeaderGroup_empty_field path metadata g st hempty hgf]
      simp
    · have hfil : (g :: gs).filter (fun g => g.watchedField != "")
          = g :: gs.filter (fun g => g.watchedField != "") := by
        simp [List.filter_cons, hgf]
      rw [hfil, processHeaderGroups_cons, processHeaderGroups_cons, ih]

/-- Dropping command groups with empty watched fields does not change the
command pass, when the snapshot has no truthy value at the empty key. -/
theorem processCommandGroups_filter_empty (path : String) (metadata : Metadata)
    (hempty : ∀ v, metadata "" = some v → v.truthy = false) :
    ∀ (l : List CommandGroup) (st : PluginState),
    processCommandGroups noFail path metadata
        (l.filter fun g => g.watchedField != "") st
      = processCommandGroups noFail path metadata l st := by
  intro l
  induction l with
  | nil => intro st; rfl
  | cons g gs ih =>
    intro st
    by_cases hgf : g.watchedField = ""
    · have hfil : (g :: gs).filter (fun g => g.watchedField != "")
          = gs.filter (fun g => g.watchedField != "") := by
        simp [List.filter_cons, hgf]
      rw [hfil, ih, processCommandGroups_cons,
        processCommandGroup_empty_field path metadata g st hempty hgf]
      simp
    · have hfil : (g :: gs).filter (fun g => g.watchedField != "")
          = g :: gs.filter (fun g => g.watchedField != "") := by
        simp [List.filter_cons, hgf]
      rw [hfil, processCommandGroups_cons, processCommandGroups_cons, ih]

/-- Nil equation of the header pass. -/
theorem processHeaderGroups_nil (fails : Effect → Bool) (path : String)
    (metadata : Metadata) (st : PluginState) :
    processHeaderGroups fails path metadata [] st = (st, [], false) := rfl

/-- Nil equation of the command pass. -/
theorem processCommandGroups_nil (fails : Effect → Bool) (path : String)
    (metadata : Metadata) (st : PluginState) :
    processCommandGroups fails path metadata [] st = (st, [], false) := rfl

/-! The claims. -/

/-- C8 counterexample: the separator is the hyphen, which occurs in
legitimate paths and field names, so two distinct pairs share a key. -/
theorem claim_C8_counterexample :
    cacheKey "a-b" "c" = cacheKey "a" "b-c"
    ∧ ¬ ("a-b" = "a" ∧ "c" = "b-c") := by decide

/-- C8 amended: the composite key concatenates path, hyphen, field; it
separates any two pairs whose paths contain no hyphen, but pairs whose
path or field contains a hyphen may collide. -/
theorem claim_C8_key_inj_amended (p1 f1 p2 f2 : String)
    (hp1 : '-' ∉ p1.data) (hp2 : '-' ∉ p2.data)
    (h : cacheKey p1 f1 = cacheKey p2 f2) : p1 = p2 ∧ f1 = f2 := by
  have hd := congrArg String.data h
  rw [cacheKey_data, cacheKey_data] at hd
  obtain ⟨ha, hb⟩ := sep_split_inj '-' p1.data f1.data p2.data f2.data hp1 hp2 hd
  exact ⟨String.ext ha, String.ext hb⟩

/-- Witness for the amended C8 on hyphen-free paths. -/
theorem claim_C8_witness :
    '-' ∉ "notes/a.md".data
    ∧ ("notes/a.md" = "notes/a.md" ∧ "status" = "status") :=
  ⟨by decide,
   claim_C8_key_inj_amended "notes/a.md" "status" "notes/a.md" "status"
     (by decide) (by decide) rfl⟩

/-- C1: on a metadata change, for every active command group with a
truthy watched field whose baseline entry is absent at dispatch time, no
command is invoked and afterwards the cache entry equals the snapshot's
current value. -/
theorem claim_C1_action_first_observation (settings : Settings) (path : String)
    (metadata : Metadata) (st : PluginState)
    (h : ∀ g ∈ settings.commandGroups, ∀ v, g.active = true →
      metadata g.watchedField = some v → v.truthy = true →
      st.lastMetadataValues (cacheKey path g.watchedField) = none) :
    (∀ i, Effect.execCommand i
        ∉ (onMetadataChanged noFail settings path (some metadata) st).2.1)
    ∧ ∀ g ∈ settings.commandGroups, ∀ v, g.active = true →
        metadata g.watchedField = some v → v.truthy = true →
        (onMetadataChanged noFail settings path (some metadata) st).1.lastMetadataValues
          (cacheKey path g.watchedField) = some v := by
  rw [onMetadataChanged_noFail_eq]
  dsimp only
  have hok : ∀ g ∈ settings.commandGroups, ∀ v, g.active = true →
      metadata g.watchedField = some v → v.truthy = true →
      (processHeaderGroups noFail path metadata settings.headerGroups
        st).1.lastMetadataValues (cacheKey path g.watchedField) = none
      ∨ (processHeaderGroups noFail path metadata settings.headerGroups
        st).1.lastMetadataValues (cacheKey path g.watchedField) = some v := by
    intro g hg v ha hm ht
    exact processHeaderGroups_cache_keyOk noFail path metadata settings.headerGroups st
      g.watchedField v hm (Or.inl (h g hg v ha hm ht))
  obtain ⟨htr, hfin⟩ := processCommandGroups_suppressed path metadata
    settings.commandGroups _ hok
  constructor
  · intro i hmem
    rw [List.mem_append] at hmem
    rcases hmem with hm1 | hm2
    · rcases processHeaderGroups_trace noFail path metadata settings.headerGroups st
        _ hm1 with h1 | ⟨c, h1⟩
      · exact Effect.noConfusion h1
      · exact Effect.noConfusion h1
    · rw [htr] at hm2
      exact absurd hm2 (List.not_mem_nil _)
  · exact hfin

/-- Witness for C1: one command group on a fresh cache. -/
theorem claim_C1_witness :
    (∀ g ∈ setCmdStatus.commandGroups, ∀ v : JVal, g.active = true →
      mdStatus g.watchedField = some v → v.truthy = true →
      stFresh.lastMetadataValues (cacheKey "notes/a.md" g.watchedField) = none)
    ∧ ((∀ i, Effect.execCommand i
          ∉ (onMetadataChanged noFail setCmdStatus "notes/a.md" (some mdStatus)
            stFresh).2.1)
       ∧ ∀ g ∈ setCmdStatus.commandGroups, ∀ v, g.active = true →
          mdStatus g.watchedField = some v → v.truthy = true →
          (onMetadataChanged noFail setCmdStatus "notes/a.md" (some mdStatus)
            stFresh).1.lastMetadataValues
            (cacheKey "notes/a.md" g.watchedField) = some v) :=
  ⟨fun g hg v ha hm ht => rfl,
   claim_C1_action_first_observation setCmdStatus "notes/a.md" mdStatus stFresh
     (fun g hg v ha hm ht => rfl)⟩

/-- C2: on a metadata change, an active header group with a truthy
watched field and no prior baseline entry performs the text rewrite: the
dispatch reads the document, writes back a rewrite inserting the current
value, and sets the cache entry to that value. -/
theorem claim_C2_header_first_observation (settings : Settings) (path : String)
    (metadata : Metadata) (st : PluginState) (g : HeaderGroup) (v : JVal)
    (hg : g ∈ settings.headerGroups) (ha : g.active = true)
    (hm : metadata g.watchedField = some v) (ht : v.truthy = true)
    (hnone : st.lastMetadataValues (cacheKey path g.watchedField) = none) :
    Effect.readDoc path
      ∈ (onMetadataChanged noFail settings path (some metadata) st).2.1
    ∧ (∃ body hdr,
        Effect.writeDoc path (replaceHeaderWithMetadataValue body hdr v.asString)
          ∈ (onMetadataChanged noFail settings path (some metadata) st).2.1)
    ∧ (onMetadataChanged noFail settings path (some metadata) st).1.lastMetadataValues
        (cacheKey path g.watchedField) = some v := by
  rw [onMetadataChanged_noFail_eq]
  dsimp only
  obtain ⟨ir, iw, ic⟩ := processHeaderGroups_fires path metadata g.watchedField v hm ht
    settings.headerGroups st ⟨g, hg, ha, rfl⟩ hnone
  refine ⟨List.mem_append_left _ ir, ?_, ?_⟩
  · obtain ⟨body, hdr, hw⟩ := iw
    exact ⟨body, hdr, List.mem_append_left _ hw⟩
  · exact processCommandGroups_cache_persist noFail path metadata
      settings.commandGroups _ g.watchedField v hm ic

/-- Witness for C2: one header group on a fresh cache. -/
theorem claim_C2_witness :
    HeaderGroup.mk "status" "## Status" true ∈ setHdrStatus.headerGroups
    ∧ mdStatus "status" = some (JVal.str "done")
    ∧ (JVal.str "done").truthy = true
    ∧ stFresh.lastMetadataValues (cacheKey "notes/a.md" "status") = none
    ∧ (Effect.readDoc "notes/a.md"
        ∈ (onMetadataChanged noFail setHdrStatus "notes/a.md" (some mdStatus)
          stFresh).2.1
      ∧ (∃ body hdr,
          Effect.writeDoc "notes/a.md"
              (replaceHeaderWithMetadataValue body hdr (JVal.str "done").asString)
            ∈ (onMetadataChanged noFail setHdrStatus "notes/a.md" (some mdStatus)
              stFresh).2.1)
      ∧ (onMetadataChanged noFail setHdrStatus "notes/a.md" (some mdStatus)
          stFresh).1.lastMetadataValues (cacheKey "notes/a.md" "status")
          = some (JVal.str "done")) :=
  ⟨by decide, by decide, by decide, rfl,
   claim_C2_header_first_observation setHdrStatus "notes/a.md" mdStatus stFresh
     (HeaderGroup.mk "status" "## Status" true) (JVal.str "done")
     (by decide) rfl (by decide) (by decide) rfl⟩

/-- C3: re-dispatching a metadata change whose snapshot values all equal
the cached baselines performs no side effect — the trace is empty, so no
document read or write occurs and no command is invoked — and every cache
entry keeps its value. -/
theorem claim_C3_unchanged_snapshot_noop (settings : Settings) (path : String)
    (metadata : Metadata) (st : PluginState)
    (hh : ∀ g ∈ settings.headerGroups, ∀ v, g.active = true →
      metadata g.watchedField = some v → v.truthy = true →
      st.lastMetadataValues (cacheKey path g.watchedField) = some v)
    (hc : ∀ g ∈ settings.commandGroups, ∀ v, g.active = true →
      metadata g.watchedField = some v → v.truthy = true →
      st.lastMetadataValues (cacheKey path g.watchedField) = some v) :
    (onMetadataChanged noFail settings path (some metadata) st).2.1 = []
    ∧ ∀ k, (onMetadataChanged noFail settings path (some metadata)
        st).1.lastMetadataValues k = st.lastMetadataValues k := by
  rw [onMetadataChanged_noFail_eq]
  rw [processHeaderGroups_noop path metadata settings.headerGroups st hh]
  dsimp only
  obtain ⟨t1, t2, t3⟩ := processCommandGroups_noop path metadata
    settings.commandGroups st hc
  exact ⟨by simp [t1], t3⟩

/-- Witness for C3: header and command groups with seeded baselines. -/
theorem claim_C3_witness :
    (∀ g ∈ setBoth.headerGroups, ∀ v : JVal, g.active = true →
      mdStatus g.watchedField = some v → v.truthy = true →
      stSeeded.lastMetadataValues (cacheKey "notes/a.md" g.watchedField) = some v)
    ∧ (∀ g ∈ setBoth.commandGroups, ∀ v : JVal, g.active = true →
      mdStatus g.watchedField = some v → v.truthy = true →
      stSeeded.lastMetadataValues (cacheKey "notes/a.md" g.watchedField) = some v)
    ∧ ((onMetadataChanged noFail setBoth "notes/a.md" (some mdStatus)
          stSeeded).2.1 = []
       ∧ ∀ k, (onMetadataChanged noFail setBoth "notes/a.md" (some mdStatus)
          stSeeded).1.lastMetadataValues k = stSeeded.lastMetadataValues k) :=
  ⟨fun g hg v ha hm ht => by
    rcases List.mem_singleton.mp hg with rfl
    have hv : JVal.str "done" = v := Option.some.inj hm
    rw [← hv]
    rfl,
   fun g hg v ha hm ht => by
    rcases List.mem_singleton.mp hg with rfl
    have hv : JVal.str "done" = v := Option.some.inj hm
    rw [← hv]
    rfl,
   claim_C3_unchanged_snapshot_noop setBoth "notes/a.md" mdStatus stSeeded
     (fun g hg v ha hm ht => by
       rcases List.mem_singleton.mp hg with rfl
       have hv : JVal.str "done" = v := Option.some.inj hm
       rw [← hv]
       rfl)
     (fun g hg v ha hm ht => by
       rcases List.mem_singleton.mp hg with rfl
       have hv : JVal.str "done" = v := Option.some.inj hm
       rw [← hv]
       rfl)⟩

/-- C6 counterexample: a rule with an empty watched field is not skipped
when the snapshot maps the empty key to a truthy value — it reacts and
writes the cache, contradicting that such a rule is inert for every
snapshot. -/
theorem claim_C6_counterexample :
    (onMetadataChanged noFail setHdrEmptyField "notes/a.md" (some mdEmptyKey)
        stFresh).2.1 ≠ []
    ∧ (onMetadataChanged noFail setHdrEmptyField "notes/a.md" (some mdEmptyKey)
        stFresh).1.lastMetadataValues (cacheKey "notes/a.md" "")
        = some (JVal.str "x") := by
  decide

/-- C6 amended: a rule with an empty watched field behaves like any other
rule on the empty-string key; it is skipped — removing all such rules
changes nothing — exactly when the snapshot has no truthy value at the
empty key. -/
theorem claim_C6_empty_field_amended (settings : Settings) (path : String)
    (metadata : Metadata) (st : PluginState)
    (hempty : ∀ v, metadata "" = some v → v.truthy = false) :
    onMetadataChanged noFail
        (Settings.mk (settings.headerGroups.filter fun g => g.watchedField != "")
          (settings.commandGroups.filter fun g => g.watchedField != ""))
        path (some metadata) st
      = onMetadataChanged noFail settings path (some metadata) st := by
  rw [onMetadataChanged_noFail_eq, onMetadataChanged_noFail_eq]
  dsimp only
  rw [processHeaderGroups_filter_empty path metadata hempty,
    processCommandGroups_filter_empty path metadata hempty]

/-- Witness for the amended C6 on a snapshot without an empty key. -/
theorem claim_C6_witness :
    (∀ v : JVal, mdStatus "" = some v → v.truthy = false)
    ∧ onMetadataChanged noFail
        (Settings.mk (setBoth.headerGroups.filter fun g => g.watchedField != "")
          (setBoth.commandGroups.filter fun g => g.watchedField != ""))
        "notes/a.md" (some mdStatus) stFresh
      = onMetadataChanged noFail setBoth "notes/a.md" (some mdStatus) stFresh :=
  ⟨fun v hv => Option.noConfusion hv,
   claim_C6_empty_field_amended setBoth "notes/a.md" mdStatus stFresh
     (fun v hv => Option.noConfusion hv)⟩

/-- C7 counterexample: a throwing command invocation in the first rule
escapes the dispatcher and the second rule is never evaluated — its
command is not executed and its cache entry keeps the stale baseline —
contradicting failure isolation. -/
theorem claim_C7_counterexample :
    (onMetadataChanged failsCmdOne setTwoCmds "notes/a.md" (some mdTwo)
        stTwo).2.2 = true
    ∧ Effect.execCommand "c2"
        ∉ (onMetadataChanged failsCmdOne setTwoCmds "notes/a.md" (some mdTwo)
          stTwo).2.1
    ∧ (onMetadataChanged failsCmdOne setTwoCmds "notes/a.md" (some mdTwo)
        stTwo).1.lastMetadataValues (cacheKey "notes/a.md" "b")
        = some (JVal.str "B1") := by
  decide

/-- C7 amended: a failure in the first command group's invocation aborts
the dispatch — the exception escapes the handler and the remaining rules
are not evaluated. -/
theorem claim_C7_failure_aborts (fails : Effect → Bool) (settings : Settings)
    (path : String) (metadata : Metadata) (st : PluginState)
    (g : CommandGroup) (gs : List CommandGroup)
    (hhg : settings.headerGroups = [])
    (hcg : settings.commandGroups = g :: gs) (v : JVal)
    (hat : (g.active && v.truthy) = true)
    (hmv : metadata g.watchedField = some v)
    (hne : some v ≠ st.lastMetadataValues (cacheKey path g.watchedField))
    (hprev : st.lastMetadataValues (cacheKey path g.watchedField) ≠ none)
    (hfail : fails (Effect.execCommand g.command) = true) :
    onMetadataChanged fails settings path (some metadata) st
      = (st, [Effect.execCommand g.command], true) := by
  have h1 : processCommandGroup fails path metadata g st
      = (st, [Effect.execCommand g.command], true) := by
    unfold processCommandGroup
    rw [hmv]
    dsimp only
    rw [if_pos hat, if_pos hne, if_pos hprev, if_pos hfail]
  unfold onMetadataChanged
  rw [hhg, hcg]
  dsimp only
  rw [processHeaderGroups_nil]
  simp only [Bool.false_eq_true, if_false]
  rw [processCommandGroups_cons, h1]
  simp

/-- Witness for the amended C7: the first of two command groups throws. -/
theorem claim_C7_witness :
    setTwoCmds.headerGroups = []
    ∧ setTwoCmds.commandGroups
        = CommandGroup.mk "a" "c1" true :: [CommandGroup.mk "b" "c2" true]
    ∧ ((CommandGroup.mk "a" "c1" true).active && (JVal.str "A2").truthy) = true
    ∧ mdTwo "a" = some (JVal.str "A2")
    ∧ some (JVal.str "A2") ≠ stTwo.lastMetadataValues (cacheKey "notes/a.md" "a")
    ∧ stTwo.lastMetadataValues (cacheKey "notes/a.md" "a") ≠ none
    ∧ failsCmdOne (Effect.execCommand "c1") = true
    ∧ onMetadataChanged failsCmdOne setTwoCmds "notes/a.md" (some mdTwo) stTwo
        = (stTwo, [Effect.execCommand "c1"], true) :=
  ⟨rfl, rfl, by decide, by decide, by decide, by decide, by decide,
   claim_C7_failure_aborts failsCmdOne setTwoCmds "notes/a.md" mdTwo stTwo
     (CommandGroup.mk "a" "c1" true) [CommandGroup.mk "b" "c2" true]
     rfl rfl (JVal.str "A2") (by decide) (by decide) (by decide) (by decide)
     (by decide)⟩

/-- C9 counterexample: a truthy watched field observed on document open
whose only rule is inactive gets no cache entry — the cache is not
silently refreshed — contradicting the claim that entries exist per field
regardless. -/
theorem claim_C9_counterexample :
    (JVal.str "done").truthy = true
    ∧ mdStatus "status" = some (JVal.str "done")
    ∧ updateLastMetadataValues setInactive "notes/a.md" (some mdStatus) cacheEmpty
        (cacheKey "notes/a.md" "status") = none := by
  decide

/-- C9 amended: during an open event the cache entry of a field is
silently refreshed to the current value exactly when some active rule
(of either kind) watches it with a truthy value; keys written by no
active truthy rule keep their previous content. -/
theorem claim_C9_seeding_amended (settings : Settings) (path : String)
    (metadata : Metadata) (c : Cache) :
    (∀ b ∈ settings.headerGroups.map HeaderGroup.base
        ++ settings.commandGroups.map CommandGroup.base,
      ∀ v, b.active = true → metadata b.watchedField = some v → v.truthy = true →
      updateLastMetadataValues settings path (some metadata) c
        (cacheKey path b.watchedField) = some v)
    ∧ ∀ k, (∀ b ∈ settings.headerGroups.map HeaderGroup.base
        ++ settings.commandGroups.map CommandGroup.base,
        ∀ v, b.active = true → metadata b.watchedField = some v →
        v.truthy = true → cacheKey path b.watchedField ≠ k) →
      updateLastMetadataValues settings path (some metadata) c k = c k := by
  unfold updateLastMetadataValues
  exact ⟨fun b hb v ha hm ht =>
      foldl_seedGroup_active path metadata _ c b hb v ha hm ht,
    fun k hk => foldl_seedGroup_untouched path metadata _ c k hk⟩

/-- Witness for the amended C9 on the two-rule configuration. -/
theorem claim_C9_witness :
    (∀ b ∈ setBoth.headerGroups.map HeaderGroup.base
        ++ setBoth.commandGroups.map CommandGroup.base,
      ∀ v, b.active = true → mdStatus b.watchedField = some v → v.truthy = true →
      updateLastMetadataValues setBoth "notes/a.md" (some mdStatus) cacheEmpty
        (cacheKey "notes/a.md" b.watchedField) = some v)
    ∧ ∀ k, (∀ b ∈ setBoth.headerGroups.map HeaderGroup.base
        ++ setBoth.commandGroups.map CommandGroup.base,
        ∀ v, b.active = true → mdStatus b.watchedField = some v →
        v.truthy = true → cacheKey "notes/a.md" b.watchedField ≠ k) →
      updateLastMetadataValues setBoth "notes/a.md" (some mdStatus) cacheEmpty k
        = cacheEmpty k :=
  claim_C9_seeding_amended setBoth "notes/a.md" mdStatus cacheEmpty

end MetadataWatcher
